import Mathlib

/-!
Verification development for the `git-org` repository (src/git_org/git_org.py).

Strings of the Python code are modelled as `List Char`; the filesystem is
modelled as the list of existing directory paths (each a raw path string, as
the code manipulates raw strings throughout).  A Python run that raises an
uncaught exception is modelled by `Option`-valued functions returning `none`,
or by an explicit `raised` outcome where the final state matters.
-/

namespace GitOrg

/-- Raw Python strings are modelled as lists of characters. -/
abbrev Str := List Char

/-! ### Generic string primitives (Python `str` operations) -/

/-- Python substring test `pat in s`. -/
def containsSub (pat : Str) : Str → Bool
  | [] => pat.isPrefixOf []
  | c :: t => pat.isPrefixOf (c :: t) || containsSub pat t

/-- Characters of `s` strictly before the first occurrence of `pat`
(Python `s.split(pat)[0]`); all of `s` when `pat` does not occur. -/
def takeBeforeFirst (pat : Str) : Str → Str
  | [] => []
  | c :: t => if pat.isPrefixOf (c :: t) then [] else c :: takeBeforeFirst pat t

/-- Characters of `s` strictly after the first occurrence of `pat`
(the remainder from which Python `s.split(pat)[1]` is cut); `[]` when
`pat` does not occur. -/
def dropAfterFirst (pat : Str) : Str → Str
  | [] => []
  | c :: t => if pat.isPrefixOf (c :: t) then (c :: t).drop pat.length
              else dropAfterFirst pat t

/-- Python `s.split(sep)[1]`: the piece between the first and the second
occurrence of `sep` (callers guard with `sep in s`). -/
def splitSecond (sep s : Str) : Str :=
  takeBeforeFirst sep (dropAfterFirst sep s)

/-- Fuelled worker for `replaceAllS`; replaces non-overlapping occurrences of
`p0 :: ps` by `rep`, scanning left to right, exactly like Python
`str.replace`.  The fuel is always at least the length of the string. -/
def replaceAllAux (p0 : Char) (ps rep : Str) : Nat → Str → Str
  | _, [] => []
  | 0, s => s
  | n + 1, c :: t =>
    if (p0 :: ps).isPrefixOf (c :: t)
    then rep ++ replaceAllAux p0 ps rep n (t.drop ps.length)
    else c :: replaceAllAux p0 ps rep n t

/-- Python `s.replace(pat, rep)`: replace all non-overlapping occurrences of
`pat` by `rep`, left to right, in a single pass. -/
def replaceAllS (pat rep s : Str) : Str :=
  match pat with
  | [] => s
  | p0 :: ps => replaceAllAux p0 ps rep s.length s

/-- Fuelled worker for `subPort`, modelling Python
`re.sub(r":[0-9]\x7b1,4\x7d/", "/", s)`: an occurrence of a colon followed by
a maximal run of one to four digits followed by a slash is replaced by a
slash; scanning resumes after the match. -/
def subPortAux : Nat → Str → Str
  | _, [] => []
  | 0, s => s
  | n + 1, c :: t =>
    if c = ':' ∧ 1 ≤ (t.takeWhile Char.isDigit).length ∧
        (t.takeWhile Char.isDigit).length ≤ 4 ∧
        (t.drop (t.takeWhile Char.isDigit).length).head? = some '/'
    then '/' :: subPortAux n (t.drop ((t.takeWhile Char.isDigit).length + 1))
    else c :: subPortAux n t

/-- Python `re.sub(r":[0-9]\x7b1,4\x7d/", "/", s)` of the source. -/
def subPort (s : Str) : Str := subPortAux s.length s

/-! ### URL normalization (`url_to_fs_path`, git_org.py lines 106-132) -/

/-- Local-path test of `url_to_fs_path`: the URL starts with `/` or with
`file://`. -/
def isLocalUrl (u : Str) : Bool :=
  "/".toList.isPrefixOf u || "file://".toList.isPrefixOf u

/-- Scheme stripping step: `if '://' in url: url = url.split('://')[1]`. -/
def stripScheme (u : Str) : Str :=
  if containsSub "://".toList u then splitSecond "://".toList u else u

/-- User stripping step: `if '@' in url: url = url.split('@')[1]`. -/
def stripUser (u : Str) : Str :=
  if containsSub "@".toList u then splitSecond "@".toList u else u

/-- Trailing-`.git` stripping step of `url_to_fs_path`:
`if url.endswith('.git') or url.endswith('.git/'): url = url.split('.git')[0]`. -/
def stripGitSuffix (u : Str) : Str :=
  if ".git".toList.isSuffixOf u || ".git/".toList.isSuffixOf u
  then takeBeforeFirst ".git".toList u
  else u

/-- Separator normalization step on a POSIX host, where `os.path.sep` is `/`:
`url.replace('/', os.path.sep).replace('\\', os.path.sep)`. -/
def sepNormalize (u : Str) : Str :=
  replaceAllS "\\".toList "/".toList (replaceAllS "/".toList "/".toList u)

/-- String-transformation pipeline of `url_to_fs_path` applied to a non-local
URL, one step per source line. -/
def transformUrl (u : Str) : Str :=
  let u1 := stripScheme u
  let u2 := stripUser u1
  let u3 := stripGitSuffix u2
  let u4 := subPort u3
  let u5 := replaceAllS ":/".toList "/".toList u4
  let u6 := replaceAllS ":".toList "/".toList u5
  let u7 := replaceAllS "~".toList "".toList u6
  let u8 := replaceAllS "scm/".toList "".toList u7
  sepNormalize u8

/-- POSIX `os.path.join` restricted to two arguments, as used by the source. -/
def pathJoin (a b : Str) : Str :=
  if b.head? = some '/' then b
  else if a = [] ∨ a.getLast? = some '/' then a ++ b
  else a ++ '/' :: b

/-- Model of `url_to_fs_path(root, url)` (git_org.py lines 106-132): local
URLs are returned unchanged, any other string runs through the
transformation pipeline and is joined onto `root`.  The function is a total
Lean function: it consults no state and always returns. -/
def url_to_fs_path (root u : Str) : Str :=
  if isLocalUrl u then u else pathJoin root (transformUrl u)

/-! ### Nested-repository filtering (git_org.py lines 69-92) -/

/-- Python string `<=` (code-point lexicographic order), the order used by
`list.sort()` on path strings. -/
def lexLe : Str → Str → Bool
  | [], _ => true
  | _ :: _, [] => false
  | a :: as, b :: bs => if a < b then true else if b < a then false else lexLe as bs

/-- Propositional form of `lexLe`, for `List.insertionSort`. -/
def strLe (a b : Str) : Prop := lexLe a b = true

instance : DecidableRel strLe := fun a b => inferInstanceAs (Decidable (lexLe a b = true))

/-- Python `s.split('/')`. -/
def splitSlash (s : Str) : List Str := s.splitOn '/'

/-- Body of `_is_sublist` (git_org.py lines 69-77): iterate over `lst2`,
overwriting the flag with the result of comparing `lst2[i]` against
`lst1[i]` at every index; `none` models the `IndexError` raised when `lst1`
is exhausted while `lst2` is not. -/
def isSublistAux : List Str → List Str → Bool → Option Bool
  | [], _, acc => some acc
  | _ :: _, [], _ => none
  | d :: l2, x :: l1, _ => isSublistAux l2 l1 (d = x)

/-- Model of `_is_sublist(lst1, lst2)` (git_org.py lines 69-77). -/
def _is_sublist (lst1 lst2 : List Str) : Option Bool :=
  isSublistAux lst2 lst1 true

/-- Inner loop of `filter_nested_git_repos`: check `repo` against every
already-retained parent (the loop has no break, so a later parent can still
raise).  Returns whether any parent matched. -/
def anyMatch : List Str → Str → Option Bool
  | [], _ => some false
  | p :: ps, repo =>
    match _is_sublist (splitSlash repo) (splitSlash p) with
    | none => none
    | some b =>
      match anyMatch ps repo with
      | none => none
      | some rest => some (b || rest)

/-- Outer loop of `filter_nested_git_repos`, processing the sorted
candidates and accumulating retained parents. -/
def filterLoop : List Str → List Str → Option (List Str)
  | parents, [] => some parents
  | parents, repo :: todo =>
    match anyMatch parents repo with
    | none => none
    | some true => filterLoop parents todo
    | some false => filterLoop (parents ++ [repo]) todo

/-- Python `sorted` order on path strings (stable; duplicates are identical
strings, so any sort agreeing with `lexLe` models `list.sort()`). -/
def sortStr (l : List Str) : List Str := List.insertionSort strLe l

/-- Model of `filter_nested_git_repos` (git_org.py lines 80-92): sort, then
retain each path not matched by `_is_sublist` against any retained parent;
`none` models the `IndexError` escaping from `_is_sublist`. -/
def filter_nested_git_repos (git_repos : List Str) : Option (List Str) :=
  filterLoop [] (sortStr git_repos)

/-! ### Filesystem model and the effectful commands -/

/-- Process outcome of an invocation: normal completion, `sys.exit(n)`, or an
uncaught exception (which also makes the OS-level exit status non-zero). -/
inductive ProcOut
  | ok
  | exited (n : Nat)
  | raised
deriving DecidableEq

/-- Everything of `p` up to and including the last `/` (the `head` part of
POSIX `os.path.dirname` before its trailing-slash stripping). -/
def dirnameHead (p : Str) : Str :=
  (p.reverse.dropWhile (fun c => ¬ c = '/')).reverse

/-- POSIX `os.path.dirname`. -/
def dirname (p : Str) : Str :=
  if dirnameHead p ≠ [] ∧ ¬ (dirnameHead p).all (fun c => c = '/')
  then ((dirnameHead p).reverse.dropWhile (fun c => c = '/')).reverse
  else dirnameHead p

/-- POSIX `os.path.basename`. -/
def basename (p : Str) : Str :=
  (p.reverse.takeWhile (fun c => ¬ c = '/')).reverse

/-- Directories `os.makedirs(p)` brings into existence: `p` itself together
with its chain of `dirname` ancestors (recursion stops, as in the source of
`os.makedirs`, when the head or the tail of the split becomes empty).  The
fuel `n` is always at least `p.length`, which bounds the recursion depth. -/
def mkdirsAux : Nat → Str → List Str
  | 0, p => [p]
  | n + 1, p =>
    (if dirname p ≠ [] ∧ basename p ≠ [] then mkdirsAux n (dirname p) else []) ++ [p]

/-- Paths created by `os.makedirs(p)` (those already existing are unchanged;
re-adding them to the directory list is membership-neutral). -/
def makedirsList (p : Str) : List Str := mkdirsAux p.length p

/-- Model of `_ensure_dir_exists` (git_org.py lines 209-213): `makedirs`
with `FileExistsError` swallowed.  `os.makedirs('')` raises
`FileNotFoundError`, which the `except` clause does not catch; the Boolean
result records that raised exception. -/
def _ensure_dir_exists (fs : List Str) (p : Str) : List Str × Bool :=
  if p = [] then (fs, true) else (makedirsList p ++ fs, false)

/-- Relocation of one directory path when the subtree at `src` is moved to
`tgt`. -/
def movePath (src tgt d : Str) : Str :=
  if d = src then tgt
  else if (src ++ ['/']).isPrefixOf d then tgt ++ d.drop src.length
  else d

/-- Membership of `d` in the subtree rooted at `a` (being `a` itself or a
path below it). -/
def underOrEq (a d : Str) : Bool := d = a || (a ++ ['/']).isPrefixOf d

/-- Model of one iteration of the executor loop of `organize`
(git_org.py lines 182-197): ensure the destination's parent exists, skip
destinations that already hold a git repository, otherwise relocate the
source subtree through the temporary staging directory.  The Boolean result
records an uncaught exception: `os.makedirs('')` on an empty parent,
`shutil.move` on a missing source, or the second staging move colliding with
an existing directory entry (in which case the source subtree sits in the
staging area, hence disappears from the tree). -/
def execOne (fs : List Str) (c : Str × Str) : List Str × Bool :=
  let src := c.1
  let dst := c.2
  let er := if dirname dst ∈ fs then (fs, false) else _ensure_dir_exists fs (dirname dst)
  if er.2 then (er.1, true)
  else
    let fs1 := er.1
    if (dst ++ "/.git".toList) ∈ fs1 then (fs1, false)
    else if src ∈ fs1 then
      let tgt := if dst ∈ fs1 then dst ++ '/' :: basename src else dst
      if dst ∈ fs1 ∧ tgt ∈ fs1 then (fs1.filter (fun d => ¬ underOrEq src d), true)
      else (fs1.map (movePath src tgt), false)
    else (fs1, true)

/-- Executor loop of `organize` over an approved plan (git_org.py lines
182-197): entries are processed in order; the loop body has no exception
handler, so a raised entry ends the loop. -/
def execPlan : List Str → List (Str × Str) → List Str × Bool
  | fs, [] => (fs, false)
  | fs, c :: cs =>
    let r := execOne fs c
    if r.2 then (r.1, true) else execPlan r.1 cs

/-- Model of `find_git_repos` (git_org.py lines 95-103): every existing
directory under `root` (root included) that directly contains a `.git`
subdirectory. -/
def find_git_repos (fs : List Str) (root : Str) : List Str :=
  fs.filter (fun p => underOrEq root p && decide ((p ++ "/.git".toList) ∈ fs))

/-- Model of `determine_fs_changes` (git_org.py lines 139-147); the
configuration store (git config files, an external collaborator) is the map
`origin` from a repository path to its optional origin URL. -/
def determine_fs_changes (origin : Str → Option Str) (root : Str)
    (git_repos : List Str) : List (Str × Str) :=
  git_repos.filterMap (fun repo => (origin repo).map (fun u => (repo, url_to_fs_path root u)))

/-- Outcome of an `organize` invocation: an uncaught exception, the
`sys.exit(0)` taken when no repositories are found, or normal completion
with the plan that was presented. -/
inductive OrgOut
  | raised
  | noRepos
  | planned (plan : List (Str × Str))
deriving DecidableEq

/-- Model of `organize` (git_org.py lines 155-197).  `approve` is the answer
the interactive prompt would give (an external collaborator); `origin` is
the configuration store.  Returns the final filesystem and the outcome. -/
def organize (origin : Str → Option Str) (approve : Bool) (fs : List Str)
    (projects_root : Str) (dry_run : Bool) : List Str × OrgOut :=
  let repos := find_git_repos fs projects_root
  match filter_nested_git_repos repos with
  | none => (fs, OrgOut.raised)
  | some repos2 =>
    if repos2.length = 0 then (fs, OrgOut.noRepos)
    else
      let changes := (determine_fs_changes origin projects_root repos2).filter
        (fun c => decide (¬ c.1 = c.2))
      let answer := if dry_run then false else approve
      if answer then
        let r := execPlan fs changes
        (r.1, if r.2 then OrgOut.raised else OrgOut.planned changes)
      else (fs, OrgOut.planned changes)

/-- Planner-only outcome of a dry run: what `organize` computes and presents
before the (denied) approval gate. -/
def dryOutcome (origin : Str → Option Str) (fs : List Str) (projects_root : Str) : OrgOut :=
  match filter_nested_git_repos (find_git_repos fs projects_root) with
  | none => OrgOut.raised
  | some repos2 =>
    if repos2.length = 0 then OrgOut.noRepos
    else OrgOut.planned ((determine_fs_changes origin projects_root repos2).filter
      (fun c => decide (¬ c.1 = c.2)))

/-- Model of `_clone` (git_org.py lines 200-206): refuse an existing
destination with `sys.exit(1)`, otherwise delegate to the external clone
collaborator `op` (which reports whether it raised). -/
def _clone (op : List Str → Str → Str → List Str × Bool) (fs : List Str)
    (url fs_path : Str) : List Str × ProcOut :=
  if fs_path ∈ fs then (fs, ProcOut.exited 1)
  else
    let r := op fs url fs_path
    (r.1, if r.2 then ProcOut.raised else ProcOut.ok)

/-- Model of `clone` (git_org.py lines 216-219). -/
def clone (op : List Str → Str → Str → List Str × Bool) (fs : List Str)
    (projects_root url : Str) : List Str × ProcOut :=
  let fs_path := url_to_fs_path projects_root url
  let er := _ensure_dir_exists fs (dirname fs_path)
  if er.2 then (er.1, ProcOut.raised)
  else _clone op er.1 url fs_path

/-! ### Order lemmas for the sort -/

theorem lexLe_total : ∀ a b : Str, lexLe a b = true ∨ lexLe b a = true := by
  intro a
  induction a with
  | nil => intro b; left; rfl
  | cons x xs ih =>
    intro b
    cases b with
    | nil => right; rfl
    | cons y ys =>
      rcases lt_trichotomy x y with h | h | h
      · left; simp [lexLe, h]
      · subst h
        rcases ih ys with h2 | h2
        · left; simp [lexLe, h2]
        · right; simp [lexLe, h2]
      · right; simp [lexLe, h]

theorem lexLe_trans :
    ∀ a b c : Str, lexLe a b = true → lexLe b c = true → lexLe a c = true := by
  intro a
  induction a with
  | nil => intro b c h1 h2; rfl
  | cons x xs ih =>
    intro b c h1 h2
    cases b with
    | nil => simp [lexLe] at h1
    | cons y ys =>
      cases c with
      | nil => simp [lexLe] at h2
      | cons z zs =>
        rcases lt_trichotomy x y with hxy | hxy | hxy
        · rcases lt_trichotomy y z with hyz | hyz | hyz
          · have : x < z := lt_trans hxy hyz
            simp [lexLe, this]
          · subst hyz; simp [lexLe, hxy]
          · simp [lexLe, not_lt_of_lt hyz, hyz] at h2
        · subst hxy
          simp [lexLe] at h1
          rcases lt_trichotomy x z with hyz | hyz | hyz
          · simp [lexLe, hyz]
          · subst hyz
            simp [lexLe] at h2 ⊢
            exact ih ys zs h1 h2
          · simp [lexLe, not_lt_of_lt hyz, hyz] at h2
        · simp [lexLe, not_lt_of_lt hxy, hxy] at h1

instance : IsTotal Str strLe := ⟨lexLe_total⟩

instance : IsTrans Str strLe := ⟨fun a b c => lexLe_trans a b c⟩

/-! ### Structure of the `filter_nested_git_repos` loop -/

theorem filterLoop_pre : ∀ (T P R : List Str), filterLoop P T = some R → ∃ Q, R = P ++ Q := by
  intro T
  induction T with
  | nil =>
    intro P R h
    simp [filterLoop] at h
    exact ⟨[], by simp [h]⟩
  | cons t T ih =>
    intro P R h
    rw [filterLoop] at h
    cases hm : anyMatch P t with
    | none => rw [hm] at h; simp at h
    | some b =>
      rw [hm] at h
      cases b with
      | true => exact ih P R h
      | false =>
        obtain ⟨Q, hQ⟩ := ih (P ++ [t]) R h
        exact ⟨t :: Q, by simp [hQ]⟩

theorem filterLoop_sub :
    ∀ (T P R : List Str), filterLoop P T = some R → List.Sublist (R.drop P.length) T := by
  intro T
  induction T with
  | nil =>
    intro P R h
    simp [filterLoop] at h
    subst h
    simp [List.drop_length]
  | cons t T ih =>
    intro P R h
    rw [filterLoop] at h
    cases hm : anyMatch P t with
    | none => rw [hm] at h; simp at h
    | some b =>
      rw [hm] at h
      cases b with
      | true => exact List.Sublist.cons t (ih P R h)
      | false =>
        obtain ⟨Q, hQ⟩ := filterLoop_pre T (P ++ [t]) R h
        have h1 : R.drop P.length = t :: Q := by
          rw [hQ, List.append_assoc, List.drop_left]
          rfl
        have h2 : R.drop (P ++ [t]).length = Q := by
          rw [hQ, List.drop_left]
        have := ih (P ++ [t]) R h
        rw [h2] at this
        rw [h1]
        exact List.Sublist.cons₂ t this

theorem filterLoop_replay :
    ∀ (T P R : List Str), filterLoop P T = some R → filterLoop P (R.drop P.length) = some R := by
  intro T
  induction T with
  | nil =>
    intro P R h
    simp [filterLoop] at h
    subst h
    simp [List.drop_length, filterLoop]
  | cons t T ih =>
    intro P R h
    rw [filterLoop] at h
    cases hm : anyMatch P t with
    | none => rw [hm] at h; simp at h
    | some b =>
      rw [hm] at h
      cases b with
      | true => exact ih P R h
      | false =>
        obtain ⟨Q, hQ⟩ := filterLoop_pre T (P ++ [t]) R h
        have h1 : R.drop P.length = t :: Q := by
          rw [hQ, List.append_assoc, List.drop_left]
          rfl
        have h2 : R.drop (P ++ [t]).length = Q := by
          rw [hQ, List.drop_left]
        have h3 := ih (P ++ [t]) R h
        rw [h2] at h3
        rw [h1, filterLoop, hm]
        exact h3

/-- C6: `filter_nested_git_repos` is idempotent — whenever a run of the
filter terminates (returns `some R` instead of raising), running it again on
`R` returns `R` unchanged. -/
theorem c6_idempotent (S R : List Str) (h : filter_nested_git_repos S = some R) :
    filter_nested_git_repos R = some R := by
  unfold filter_nested_git_repos at h ⊢
  have hrep := filterLoop_replay _ _ _ h
  simp at hrep
  have hsub := filterLoop_sub _ _ _ h
  simp at hsub
  have hsorted : List.Sorted strLe (sortStr S) := List.sorted_insertionSort strLe S
  have hRsorted : List.Sorted strLe R := List.Pairwise.sublist hsub hsorted
  have heq : sortStr R = R := List.Sorted.insertionSort_eq hRsorted
  rw [heq]
  exact hrep

/-- C6 witness: a concrete run of the idempotence theorem. -/
theorem c6_idempotent_witness :
    filter_nested_git_repos ["a".toList, "b".toList] = some ["a".toList, "b".toList] :=
  c6_idempotent ["b".toList, "a".toList] ["a".toList, "b".toList] (by decide)

/-- C2: on the sibling paths `a/b/x` and `a/c/x` the code drops `a/c/x`,
although it is not a path-segment descendant of `a/b/x`: `_is_sublist`
keeps only the comparison of the last parent segment, so the shared final
segment `x` makes it report a match. -/
theorem c2_sibling_dropped :
    _is_sublist ["a".toList, "c".toList, "x".toList] ["a".toList, "b".toList, "x".toList] =
      some true ∧
    filter_nested_git_repos ["a/b/x".toList, "a/c/x".toList] = some ["a/b/x".toList] := by
  decide

/-- C5: with input `[a/b/x, a/c/x, a/c/x/d]`, repository `a/c/x/d` lies
inside `a/c/x` and both are in the input, yet `a/c/x` does not appear in the
result — the last-segment false positive removes the ancestor itself, so the
claim that "only A appears" fails. -/
theorem c5_ancestor_dropped :
    filter_nested_git_repos ["a/b/x".toList, "a/c/x".toList, "a/c/x/d".toList] =
      some ["a/b/x".toList] := by
  decide

/-- C10: `filter_nested_git_repos` is not total — on `["a/b/c", "ab"]` the
retained parent `a/b/c` has more segments than the candidate `ab`, and
`_is_sublist` indexes the candidate's segment list at every position of the
parent's segment list, raising `IndexError` (modelled by `none`). -/
theorem c10_index_error :
    filter_nested_git_repos ["a/b/c".toList, "ab".toList] = none := by
  decide

/-! ### First-occurrence splitting lemmas -/

theorem isPrefixOf_iff_exists :
    ∀ p s : Str, p.isPrefixOf s = true ↔ ∃ r, s = p ++ r := by
  intro p
  induction p with
  | nil =>
    intro s
    simp [List.isPrefixOf]
  | cons a as ih =>
    intro s
    cases s with
    | nil =>
      simp [List.isPrefixOf]
    | cons b t =>
      simp only [List.isPrefixOf, Bool.and_eq_true, beq_iff_eq, ih, List.cons_append]
      constructor
      · rintro ⟨hab, r, hr⟩
        exact ⟨r, by rw [hab, hr]⟩
      · rintro ⟨r, hr⟩
        injection hr with hb ht
        exact ⟨hb.symm, r, ht⟩

theorem takeBeforeFirst_decomp :
    ∀ (pat s : Str), ∃ r, s = takeBeforeFirst pat s ++ r := by
  intro pat s
  induction s with
  | nil => exact ⟨[], rfl⟩
  | cons c t ih =>
    by_cases hp : pat.isPrefixOf (c :: t) = true
    · exact ⟨c :: t, by simp [takeBeforeFirst, hp]⟩
    · obtain ⟨r, hr⟩ := ih
      refine ⟨r, ?_⟩
      rw [takeBeforeFirst, if_neg (by simp [hp])]
      simp [← hr]

theorem containsSub_decomp (pat : Str) :
    ∀ s : Str, containsSub pat s = true →
      s = takeBeforeFirst pat s ++ pat ++ dropAfterFirst pat s := by
  intro s
  induction s with
  | nil =>
    intro h
    simp [containsSub] at h
    subst h
    simp [takeBeforeFirst, dropAfterFirst]
  | cons c t ih =>
    intro h
    by_cases hp : pat.isPrefixOf (c :: t) = true
    · obtain ⟨r, hr⟩ := (isPrefixOf_iff_exists pat (c :: t)).mp hp
      rw [takeBeforeFirst, if_pos (by simp [hp]), dropAfterFirst, if_pos (by simp [hp])]
      rw [hr, List.drop_left]
      simp
    · have hct : containsSub pat t = true := by
        rw [containsSub] at h
        simp [hp] at h
        exact h
      rw [takeBeforeFirst, if_neg (by simp [hp]), dropAfterFirst, if_neg (by simp [hp])]
      have h2 := ih hct
      rw [List.append_assoc] at h2
      simp only [List.cons_append, List.append_assoc]
      exact congrArg (List.cons c) h2

theorem not_containsSub_takeBeforeFirst (pat : Str) (hne : pat ≠ []) :
    ∀ s : Str, containsSub pat (takeBeforeFirst pat s) = false := by
  have hnil : containsSub pat [] = false := by
    cases pat with
    | nil => exact absurd rfl hne
    | cons a as => simp [containsSub, List.isPrefixOf]
  intro s
  induction s with
  | nil => simpa [takeBeforeFirst] using hnil
  | cons c t ih =>
    by_cases hp : pat.isPrefixOf (c :: t) = true
    · simpa [takeBeforeFirst, hp] using hnil
    · rw [takeBeforeFirst, if_neg (by simp [hp])]
      have hbad : pat.isPrefixOf (c :: takeBeforeFirst pat t) = false := by
        by_contra hcon
        have hcon2 : pat.isPrefixOf (c :: takeBeforeFirst pat t) = true := by
          revert hcon
          cases pat.isPrefixOf (c :: takeBeforeFirst pat t) <;> simp
        obtain ⟨r, hr⟩ := (isPrefixOf_iff_exists _ _).mp hcon2
        obtain ⟨r2, hr2⟩ := takeBeforeFirst_decomp pat t
        have : c :: t = pat ++ (r ++ r2) := by
          rw [hr2, ← List.append_assoc, ← hr]
          rfl
        have : pat.isPrefixOf (c :: t) = true :=
          (isPrefixOf_iff_exists _ _).mpr ⟨r ++ r2, this⟩
        simp [this] at hp
      rw [containsSub, hbad]
      simpa using ih

theorem containsSub_of_append (pat : Str) :
    ∀ p q : Str, containsSub pat (p ++ pat ++ q) = true := by
  intro p
  induction p with
  | nil =>
    intro q
    cases hpat : pat with
    | nil => cases q with
      | nil => rfl
      | cons b t => simp [containsSub, List.isPrefixOf]
    | cons a as =>
      have hpre : (a :: as).isPrefixOf ((a :: as) ++ q) = true :=
        (isPrefixOf_iff_exists _ _).mpr ⟨q, rfl⟩
      simp [containsSub, hpre]
  | cons a p ih =>
    intro q
    rw [List.cons_append, List.cons_append, containsSub, ih]
    simp

theorem isSuffixOf_iff_exists :
    ∀ p s : Str, p.isSuffixOf s = true ↔ ∃ r, s = r ++ p := by
  intro p s
  rw [List.isSuffixOf, isPrefixOf_iff_exists]
  constructor
  · rintro ⟨r, hr⟩
    refine ⟨r.reverse, ?_⟩
    have := congrArg List.reverse hr
    simpa using this
  · rintro ⟨r, rfl⟩
    exact ⟨r.reverse, by simp⟩

/-- C4 counterexample: after scheme/user stripping, `host/a.git/b.git` ends
with `.git`, but the stripping step returns `host/a` — the text before the
FIRST `.git` — not `host/a.git/b`, the string with only its trailing suffix
removed. -/
theorem c4_counterexample :
    ".git".toList.isSuffixOf "host/a.git/b.git".toList = true ∧
    stripGitSuffix "host/a.git/b.git".toList = "host/a".toList ∧
    ¬ stripGitSuffix "host/a.git/b.git".toList = "host/a.git/b".toList := by
  decide

/-- C4 (amended): when the URL remaining after scheme and user stripping
ends with `.git` or `.git/`, the stripping step returns the prefix strictly
before the first occurrence of `.git`; that prefix contains no `.git`, and
everything from the first occurrence on (including any later `.git`) is
discarded. -/
theorem c4_strip_before_first (u : Str)
    (h : ".git".toList.isSuffixOf u = true ∨ ".git/".toList.isSuffixOf u = true) :
    (∃ rest, u = stripGitSuffix u ++ ".git".toList ++ rest) ∧
      containsSub ".git".toList (stripGitSuffix u) = false := by
  have hstrip : stripGitSuffix u = takeBeforeFirst ".git".toList u := by
    have hcond : (".git".toList.isSuffixOf u || ".git/".toList.isSuffixOf u) = true := by
      rw [Bool.or_eq_true]
      exact h
    unfold stripGitSuffix
    rw [if_pos hcond]
  have hcs : containsSub ".git".toList u = true := by
    rcases h with h | h
    · obtain ⟨r, hr⟩ := (isSuffixOf_iff_exists _ _).mp h
      subst hr
      have := containsSub_of_append ".git".toList r []
      simpa using this
    · obtain ⟨r, hr⟩ := (isSuffixOf_iff_exists _ _).mp h
      subst hr
      have hsplit : ".git/".toList = ".git".toList ++ "/".toList := by decide
      rw [hsplit, ← List.append_assoc]
      exact containsSub_of_append _ _ _
  constructor
  · refine ⟨dropAfterFirst ".git".toList u, ?_⟩
    rw [hstrip]
    exact containsSub_decomp _ _ hcs
  · rw [hstrip]
    exact not_containsSub_takeBeforeFirst _ (by decide) u

/-- C4 witness: the amended theorem applied to `host/a.git`. -/
theorem c4_strip_witness :
    (∃ rest, "host/a.git".toList =
        stripGitSuffix "host/a.git".toList ++ ".git".toList ++ rest) ∧
      containsSub ".git".toList (stripGitSuffix "host/a.git".toList) = false :=
  c4_strip_before_first "host/a.git".toList (Or.inl (by decide))

/-! ### Character tracking through the URL pipeline -/

theorem mem_takeBeforeFirst {c : Char} (pat : Str) :
    ∀ s : Str, c ∈ takeBeforeFirst pat s → c ∈ s := by
  intro s
  induction s with
  | nil => intro h; simp [takeBeforeFirst] at h
  | cons a t ih =>
    intro h
    by_cases hp : pat.isPrefixOf (a :: t) = true
    · rw [takeBeforeFirst, if_pos (by simp [hp])] at h
      simp at h
    · rw [takeBeforeFirst, if_neg (by simp [hp])] at h
      rcases List.mem_cons.mp h with h1 | h1
      · exact h1 ▸ List.mem_cons_self a t
      · exact List.mem_cons_of_mem a (ih h1)

theorem mem_dropAfterFirst {c : Char} (pat : Str) :
    ∀ s : Str, c ∈ dropAfterFirst pat s → c ∈ s := by
  intro s
  induction s with
  | nil => intro h; simp [dropAfterFirst] at h
  | cons a t ih =>
    intro h
    by_cases hp : pat.isPrefixOf (a :: t) = true
    · rw [dropAfterFirst, if_pos (by simp [hp])] at h
      exact List.drop_subset _ _ h
    · rw [dropAfterFirst, if_neg (by simp [hp])] at h
      exact List.mem_cons_of_mem a (ih h)

theorem mem_splitSecond {c : Char} (sep s : Str) (h : c ∈ splitSecond sep s) : c ∈ s :=
  mem_dropAfterFirst sep s (mem_takeBeforeFirst sep _ h)

theorem mem_replaceAllAux {c : Char} (p0 : Char) (ps rep : Str) :
    ∀ (n : Nat) (s : Str), c ∈ replaceAllAux p0 ps rep n s → c ∈ rep ∨ c ∈ s := by
  intro n
  induction n with
  | zero =>
    intro s h
    cases s with
    | nil => simp [replaceAllAux] at h
    | cons a t => exact Or.inr (by simpa [replaceAllAux] using h)
  | succ n ih =>
    intro s h
    cases s with
    | nil => simp [replaceAllAux] at h
    | cons a t =>
      by_cases hp : (p0 :: ps).isPrefixOf (a :: t) = true
      · rw [replaceAllAux, if_pos (by simp [hp])] at h
        rcases List.mem_append.mp h with h1 | h1
        · exact Or.inl h1
        · rcases ih _ h1 with h2 | h2
          · exact Or.inl h2
          · exact Or.inr (List.mem_cons_of_mem a (List.drop_subset _ _ h2))
      · rw [replaceAllAux, if_neg (by simp [hp])] at h
        rcases List.mem_cons.mp h with h1 | h1
        · exact Or.inr (h1 ▸ List.mem_cons_self a t)
        · rcases ih _ h1 with h2 | h2
          · exact Or.inl h2
          · exact Or.inr (List.mem_cons_of_mem a h2)

theorem mem_replaceAllS {c : Char} (pat rep s : Str) (h : c ∈ replaceAllS pat rep s) :
    c ∈ rep ∨ c ∈ s := by
  cases pat with
  | nil => exact Or.inr h
  | cons p0 ps => exact mem_replaceAllAux p0 ps rep _ _ h

theorem mem_subPortAux {c : Char} :
    ∀ (n : Nat) (s : Str), c ∈ subPortAux n s → c = '/' ∨ c ∈ s := by
  intro n
  induction n with
  | zero =>
    intro s h
    cases s with
    | nil => simp [subPortAux] at h
    | cons a t => exact Or.inr (by simpa [subPortAux] using h)
  | succ n ih =>
    intro s h
    cases s with
    | nil => simp [subPortAux] at h
    | cons a t =>
      rw [subPortAux] at h
      split at h
      · rcases List.mem_cons.mp h with h1 | h1
        · exact Or.inl h1
        · rcases ih _ h1 with h2 | h2
          · exact Or.inl h2
          · exact Or.inr (List.mem_cons_of_mem a (List.drop_subset _ _ h2))
      · rcases List.mem_cons.mp h with h1 | h1
        · exact Or.inr (h1 ▸ List.mem_cons_self a t)
        · rcases ih _ h1 with h2 | h2
          · exact Or.inl h2
          · exact Or.inr (List.mem_cons_of_mem a h2)

theorem mem_subPort {c : Char} (s : Str) (h : c ∈ subPort s) : c = '/' ∨ c ∈ s :=
  mem_subPortAux _ _ h

theorem mem_stripGitSuffix {c : Char} (s : Str) (h : c ∈ stripGitSuffix s) : c ∈ s := by
  unfold stripGitSuffix at h
  split at h
  · exact mem_takeBeforeFirst _ _ h
  · exact h

theorem mem_stripScheme {c : Char} (s : Str) (h : c ∈ stripScheme s) : c ∈ s := by
  unfold stripScheme at h
  split at h
  · exact mem_splitSecond _ _ h
  · exact h

theorem notMem_takeBeforeFirst_single (x : Char) :
    ∀ s : Str, x ∉ takeBeforeFirst [x] s := by
  intro s
  induction s with
  | nil => simp [takeBeforeFirst]
  | cons a t ih =>
    by_cases hax : a = x
    · subst hax
      have hp : List.isPrefixOf [a] (a :: t) = true := by simp [List.isPrefixOf]
      rw [takeBeforeFirst, if_pos (by simp [hp])]
      simp
    · have hp : List.isPrefixOf [x] (a :: t) = false := by
        simp [List.isPrefixOf]
        intro hxa
        exact absurd hxa.symm hax
      rw [takeBeforeFirst, if_neg (by simp [hp])]
      intro hmem
      rcases List.mem_cons.mp hmem with h1 | h1
      · exact hax h1.symm
      · exact ih h1

theorem containsSub_single_of_mem (x : Char) :
    ∀ s : Str, x ∈ s → containsSub [x] s = true := by
  intro s
  induction s with
  | nil => intro h; simp at h
  | cons a t ih =>
    intro h
    rcases List.mem_cons.mp h with h1 | h1
    · subst h1
      simp [containsSub, List.isPrefixOf]
    · rw [containsSub, ih h1]
      simp

theorem notMem_replaceAllAux_single (x : Char) (rep : Str) (hrep : x ∉ rep) :
    ∀ (n : Nat) (s : Str), s.length ≤ n → x ∉ replaceAllAux x [] rep n s := by
  intro n
  induction n with
  | zero =>
    intro s hlen
    cases s with
    | nil => simp [replaceAllAux]
    | cons a t => simp at hlen
  | succ n ih =>
    intro s hlen
    cases s with
    | nil => simp [replaceAllAux]
    | cons a t =>
      by_cases hax : a = x
      · subst hax
        have hp : List.isPrefixOf [a] (a :: t) = true := by simp [List.isPrefixOf]
        rw [replaceAllAux, if_pos (by simp [hp])]
        intro hmem
        rcases List.mem_append.mp hmem with h1 | h1
        · exact hrep h1
        · have ht : t.length ≤ n := by simpa using hlen
          exact ih t ht (by simpa using h1)
      · have hp : List.isPrefixOf [x] (a :: t) = false := by
          simp [List.isPrefixOf]
          intro hxa
          exact absurd hxa.symm hax
        rw [replaceAllAux, if_neg (by simp [hp])]
        intro hmem
        rcases List.mem_cons.mp hmem with h1 | h1
        · exact hax h1.symm
        · have ht : t.length ≤ n := by
            have := hlen
            simp at this
            omega
          exact ih t ht h1

theorem notMem_replaceAllS_single (x : Char) (rep s : Str) (hrep : x ∉ rep) :
    x ∉ replaceAllS [x] rep s :=
  notMem_replaceAllAux_single x rep hrep s.length s le_rfl

theorem notMem_stripUser_at : ∀ u : Str, '@' ∉ stripUser u := by
  intro u
  unfold stripUser
  split
  · exact notMem_takeBeforeFirst_single '@' _
  · intro hmem
    next hcon =>
      exact hcon (containsSub_single_of_mem '@' u hmem)

/-- Characters of the fully transformed URL: no colon, no tilde, no at-sign
survives the pipeline. -/
theorem transformUrl_clean (u : Str) :
    ':' ∉ transformUrl u ∧ '~' ∉ transformUrl u ∧ '@' ∉ transformUrl u := by
  unfold transformUrl
  set u1 := stripScheme u with hu1
  set u2 := stripUser u1 with hu2
  set u3 := stripGitSuffix u2 with hu3
  set u4 := subPort u3 with hu4
  set u5 := replaceAllS ":/".toList "/".toList u4 with hu5
  set u6 := replaceAllS ":".toList "/".toList u5 with hu6
  set u7 := replaceAllS "~".toList "".toList u6 with hu7
  set u8 := replaceAllS "scm/".toList "".toList u7 with hu8
  have hcolon6 : ':' ∉ u6 := by
    rw [hu6]
    exact notMem_replaceAllS_single ':' _ _ (by decide)
  have hcolon7 : ':' ∉ u7 := by
    intro hmem
    rcases mem_replaceAllS _ _ _ hmem with h | h
    · simp at h
    · exact hcolon6 h
  have hcolon8 : ':' ∉ u8 := by
    intro hmem
    rcases mem_replaceAllS _ _ _ hmem with h | h
    · simp at h
    · exact hcolon7 h
  have htilde7 : '~' ∉ u7 := by
    rw [hu7]
    exact notMem_replaceAllS_single '~' _ _ (by decide)
  have htilde8 : '~' ∉ u8 := by
    intro hmem
    rcases mem_replaceAllS _ _ _ hmem with h | h
    · simp at h
    · exact htilde7 h
  have hat2 : '@' ∉ u2 := notMem_stripUser_at u1
  have hat3 : '@' ∉ u3 := fun hmem => hat2 (mem_stripGitSuffix _ hmem)
  have hat4 : '@' ∉ u4 := by
    intro hmem
    rcases mem_subPort _ hmem with h | h
    · exact absurd h (by decide)
    · exact hat3 h
  have hat5 : '@' ∉ u5 := by
    intro hmem
    rcases mem_replaceAllS _ _ _ hmem with h | h
    · exact absurd h (by decide)
    · exact hat4 h
  have hat6 : '@' ∉ u6 := by
    intro hmem
    rcases mem_replaceAllS _ _ _ hmem with h | h
    · exact absurd h (by decide)
    · exact hat5 h
  have hat7 : '@' ∉ u7 := by
    intro hmem
    rcases mem_replaceAllS _ _ _ hmem with h | h
    · simp at h
    · exact hat6 h
  have hat8 : '@' ∉ u8 := by
    intro hmem
    rcases mem_replaceAllS _ _ _ hmem with h | h
    · simp at h
    · exact hat7 h
  have hsep : ∀ x : Char, x ≠ '/' → x ∉ u8 → x ∉ sepNormalize u8 := by
    intro x hx hmem8 hmem
    unfold sepNormalize at hmem
    rcases mem_replaceAllS _ _ _ hmem with h | h
    · exact hx (by simpa using h)
    · rcases mem_replaceAllS _ _ _ h with h2 | h2
      · exact hx (by simpa using h2)
      · exact hmem8 h2
  exact ⟨hsep ':' (by decide) hcolon8, hsep '~' (by decide) htilde8,
    hsep '@' (by decide) hat8⟩

theorem mem_pathJoin {c : Char} (a b : Str) (h : c ∈ pathJoin a b) :
    c ∈ a ∨ c ∈ b ∨ c = '/' := by
  unfold pathJoin at h
  split at h
  · exact Or.inr (Or.inl h)
  · split at h
    · rcases List.mem_append.mp h with h1 | h1
      · exact Or.inl h1
      · exact Or.inr (Or.inl h1)
    · rcases List.mem_append.mp h with h1 | h1
      · exact Or.inl h1
      · rcases List.mem_cons.mp h1 with h2 | h2
        · exact Or.inr (Or.inr h2)
        · exact Or.inr (Or.inl h2)

/-- C1 counterexample: the non-local URL `host/sscm/cm/a.git/b` does not end
with `.git`, so its interior `.git` is kept, and removing the `scm/` at
offset 6 splices a new `scm/` together — the result of `url_to_fs_path`
contains both forbidden substrings. -/
theorem c1_counterexample :
    isLocalUrl "host/sscm/cm/a.git/b".toList = false ∧
    url_to_fs_path "myroot".toList "host/sscm/cm/a.git/b".toList =
      "myroot/host/scm/a.git/b".toList ∧
    containsSub ".git".toList
      (url_to_fs_path "myroot".toList "host/sscm/cm/a.git/b".toList) = true ∧
    containsSub "scm/".toList
      (url_to_fs_path "myroot".toList "host/sscm/cm/a.git/b".toList) = true := by
  decide

/-- C1 (amended): for every non-local URL, and every root containing none of
these characters, the result of `url_to_fs_path` contains no `:`, no `~` and
no `@`; the `.git`- and `scm/`-freedom parts of the original claim are false
(see the counterexample). -/
theorem c1_no_colon_tilde_at (root u : Str) (hu : isLocalUrl u = false)
    (hroot : ':' ∉ root ∧ '~' ∉ root ∧ '@' ∉ root) :
    ':' ∉ url_to_fs_path root u ∧ '~' ∉ url_to_fs_path root u ∧
      '@' ∉ url_to_fs_path root u := by
  have hres : url_to_fs_path root u = pathJoin root (transformUrl u) := by
    unfold url_to_fs_path
    rw [if_neg (by simp [hu])]
  obtain ⟨hc, ht, ha⟩ := transformUrl_clean u
  rw [hres]
  refine ⟨fun hmem => ?_, fun hmem => ?_, fun hmem => ?_⟩
  · rcases mem_pathJoin _ _ hmem with h | h | h
    · exact hroot.1 h
    · exact hc h
    · exact absurd h (by decide)
  · rcases mem_pathJoin _ _ hmem with h | h | h
    · exact hroot.2.1 h
    · exact ht h
    · exact absurd h (by decide)
  · rcases mem_pathJoin _ _ hmem with h | h | h
    · exact hroot.2.2 h
    · exact ha h
    · exact absurd h (by decide)

/-- C1 witness: the amended theorem at a concrete root and URL. -/
theorem c1_no_colon_tilde_at_witness :
    ':' ∉ url_to_fs_path "myroot".toList "user@host.xz:/~u/r.git".toList ∧
    '~' ∉ url_to_fs_path "myroot".toList "user@host.xz:/~u/r.git".toList ∧
    '@' ∉ url_to_fs_path "myroot".toList "user@host.xz:/~u/r.git".toList :=
  c1_no_colon_tilde_at "myroot".toList "user@host.xz:/~u/r.git".toList (by decide)
    ⟨by decide, by decide, by decide⟩

/-- C9: `url_to_fs_path` is modelled by a total Lean function of its two
string arguments alone (no state, never fails); it returns local URLs
unchanged and maps every other string to the join of `root` with the
transformed URL. -/
theorem c9_pure_total (root u : Str) :
    (isLocalUrl u = true → url_to_fs_path root u = u) ∧
    (isLocalUrl u = false → url_to_fs_path root u = pathJoin root (transformUrl u)) := by
  constructor <;> intro h <;> simp [url_to_fs_path, h]

/-- C9 witness: the identity branch on a local path. -/
theorem c9_pure_total_witness :
    url_to_fs_path "myroot".toList "/home/me/repo".toList = "/home/me/repo".toList :=
  (c9_pure_total "myroot".toList "/home/me/repo".toList).1 (by decide)

/-! ### Filesystem-effect theorems -/

theorem lenDropWhileLe (p : Char → Bool) : ∀ l : Str, (l.dropWhile p).length ≤ l.length := by
  intro l
  induction l with
  | nil => simp
  | cons a t ih =>
    rw [List.dropWhile]
    cases p a with
    | true => simpa using Nat.le_succ_of_le ih
    | false => simp

theorem dirnameHead_length_le (p : Str) : (dirnameHead p).length ≤ p.length := by
  unfold dirnameHead
  calc ((p.reverse.dropWhile (fun c => ¬ c = '/')).reverse).length
      = (p.reverse.dropWhile (fun c => ¬ c = '/')).length := by simp
    _ ≤ p.reverse.length := lenDropWhileLe _ _
    _ = p.length := by simp

theorem dirname_length_le (p : Str) : (dirname p).length ≤ p.length := by
  unfold dirname
  split
  · calc (((dirnameHead p).reverse.dropWhile (fun c => c = '/')).reverse).length
        = ((dirnameHead p).reverse.dropWhile (fun c => c = '/')).length := by simp
      _ ≤ (dirnameHead p).reverse.length := lenDropWhileLe _ _
      _ = (dirnameHead p).length := by simp
      _ ≤ p.length := dirnameHead_length_le p
  · exact dirnameHead_length_le p

theorem mem_mkdirsAux_length :
    ∀ (n : Nat) (p q : Str), q ∈ mkdirsAux n p → q.length ≤ p.length := by
  intro n
  induction n with
  | zero =>
    intro p q h
    simp [mkdirsAux] at h
    simp [h]
  | succ n ih =>
    intro p q h
    rw [mkdirsAux] at h
    rcases List.mem_append.mp h with h1 | h1
    · split at h1
      · exact le_trans (ih _ _ h1) (dirname_length_le p)
      · simp at h1
    · simp at h1
      simp [h1]

theorem mem_makedirsList_length (p q : Str) (h : q ∈ makedirsList p) :
    q.length ≤ p.length :=
  mem_mkdirsAux_length _ _ _ h

/-- C8: if the canonical destination of `url` already exists, `clone`
terminates with a non-zero process exit (the `sys.exit(1)` guard of
`_clone`, or the uncaught `FileNotFoundError` of `os.makedirs('')`) and
never reaches the clone collaborator; the destination and everything below
it are exactly as before — this holds for every possible behaviour `op` of
the external clone collaborator. -/
theorem c8_no_overwrite (op : List Str → Str → Str → List Str × Bool) (fs : List Str)
    (root url : Str) (h : url_to_fs_path root url ∈ fs) :
    ((clone op fs root url).2 = ProcOut.exited 1 ∨
      (clone op fs root url).2 = ProcOut.raised) ∧
    ∀ q : Str,
      (q = url_to_fs_path root url ∨
        (url_to_fs_path root url ++ ['/']).isPrefixOf q = true) →
      (q ∈ (clone op fs root url).1 ↔ q ∈ fs) := by
  by_cases hd : dirname (url_to_fs_path root url) = []
  · have hres : clone op fs root url = (fs, ProcOut.raised) := by
      simp [clone, _ensure_dir_exists, hd]
    rw [hres]
    exact ⟨Or.inr rfl, fun q _ => Iff.rfl⟩
  · have hmem1 : url_to_fs_path root url ∈
        makedirsList (dirname (url_to_fs_path root url)) ++ fs :=
      List.mem_append_right _ h
    have hres : clone op fs root url =
        (makedirsList (dirname (url_to_fs_path root url)) ++ fs, ProcOut.exited 1) := by
      simp [clone, _ensure_dir_exists, _clone, hd, hmem1]
    rw [hres]
    refine ⟨Or.inl rfl, fun q hq => ?_⟩
    constructor
    · intro hmem
      rcases List.mem_append.mp hmem with h1 | h1
      · have hle := mem_makedirsList_length _ _ h1
        have hdl := dirname_length_le (url_to_fs_path root url)
        rcases hq with hq | hq
        · rw [hq] at h1 ⊢
          exact h
        · obtain ⟨r, hr⟩ := (isPrefixOf_iff_exists _ _).mp hq
          rw [hr] at hle
          simp at hle
          omega
      · exact h1
    · intro hmem
      exact List.mem_append_right _ hmem

/-- C8 witness: concrete run with an existing destination. -/
theorem c8_no_overwrite_witness :
    ((clone (fun f _ _ => (f, false)) ["myroot/host/r".toList]
        "myroot".toList "host:r.git".toList).2 = ProcOut.exited 1 ∨
      (clone (fun f _ _ => (f, false)) ["myroot/host/r".toList]
        "myroot".toList "host:r.git".toList).2 = ProcOut.raised) :=
  (c8_no_overwrite (fun f _ _ => (f, false)) ["myroot/host/r".toList]
    "myroot".toList "host:r.git".toList (by decide)).1

/-- C3 counterexample: in a plan of two independent entries, the first entry
raises (its source is missing), and the second entry — which on its own
would relocate `r` to `x/r2` — is never processed: the run ends with the
exception and `x/r2` does not exist afterwards. -/
theorem c3_counterexample :
    (execPlan ["r".toList, "r/.git".toList]
        [("gone".toList, "x/d1".toList), ("r".toList, "x/r2".toList)]).2 = true ∧
    "x/r2".toList ∉ (execPlan ["r".toList, "r/.git".toList]
        [("gone".toList, "x/d1".toList), ("r".toList, "x/r2".toList)]).1 ∧
    "r".toList ∈ (execPlan ["r".toList, "r/.git".toList]
        [("gone".toList, "x/d1".toList), ("r".toList, "x/r2".toList)]).1 ∧
    execPlan ["r".toList, "r/.git".toList] [("r".toList, "x/r2".toList)] =
      (["x".toList, "x/r2".toList, "x/r2/.git".toList], false) := by
  decide

/-- C3 (amended): the executor loop has no per-entry exception handler, so a
raised filesystem error while processing one entry aborts the run — the
remaining plan entries are never processed, whatever they are. -/
theorem c3_failure_aborts (fs : List Str) (c : Str × Str) (cs : List (Str × Str))
    (h : (execOne fs c).2 = true) :
    execPlan fs (c :: cs) = ((execOne fs c).1, true) := by
  rw [execPlan]
  simp [h]

/-- C3 witness: the abort theorem on the concrete failing plan. -/
theorem c3_failure_aborts_witness :
    execPlan ["r".toList, "r/.git".toList]
      [("gone".toList, "x/d1".toList), ("r".toList, "x/r2".toList)] =
      ((execOne ["r".toList, "r/.git".toList] ("gone".toList, "x/d1".toList)).1, true) :=
  c3_failure_aborts ["r".toList, "r/.git".toList] ("gone".toList, "x/d1".toList)
    [("r".toList, "x/r2".toList)] (by decide)

/-- C7 counterexample: a filesystem with repositories at `myroot/x-y/z` and
`myroot/x.y` makes the nested-repository filter raise `IndexError`
(lexicographically, `myroot/x-y/z` sorts first and has more segments), so
the dry-run invocation does not terminate successfully and no plan is
presented. -/
theorem c7_counterexample :
    (organize (fun _ => none) true
        ["myroot".toList, "myroot/x-y".toList, "myroot/x-y/z".toList,
          "myroot/x-y/z/.git".toList, "myroot/x.y".toList, "myroot/x.y/.git".toList]
        "myroot".toList true).2 = OrgOut.raised := by
  decide

/-- C7 (amended): with `dry_run = true` the approval is unconditionally
denied and the executor never runs, whatever the prompt would answer: the
filesystem after the invocation is exactly the filesystem before it, and the
outcome is the pure planner outcome — the raised filter exception, the
no-repositories exit, or the presented plan (never an executed one). -/
theorem c7_dry_run_frame (origin : Str → Option Str) (approve : Bool) (fs : List Str)
    (root : Str) :
    (organize origin approve fs root true).1 = fs ∧
    (organize origin approve fs root true).2 = dryOutcome origin fs root := by
  unfold organize dryOutcome
  cases h : filter_nested_git_repos (find_git_repos fs root) with
  | none => simp [h]
  | some rs =>
    by_cases hlen : rs = []
    · simp [h, hlen]
    · simp [h, hlen]

end GitOrg
